import Mathlib

/-!
Shallow embedding of `miner-sim.py`: a round-based mining simulator with
honest miners (always extend the main tip) and colluding miners (extend a
shared private coalition tip, reverting to the main tip when more than
`gap` behind).  Python dictionaries are modelled as association lists with
insertion-order semantics; Python `int` is `Int` (heights, which are
always non-negative, are `Nat`); `round(x, 2)` is round-half-to-even at
the second decimal over `ℚ`.
-/

namespace MinerSim

/-- Producer identity of a block: the string `"genesis"`, `f"H{i}"` for the
i-th honest miner, or `f"C{i}"` for the i-th colluding miner. -/
inductive MinerId where
  | genesis : MinerId
  | H : Nat → MinerId
  | C : Nat → MinerId
deriving DecidableEq, Repr

/-- Kind dispatch used for `type(miner) == ColludingMiner` checks. -/
inductive MinerKind where
  | honest : MinerKind
  | colluding : MinerKind
deriving DecidableEq, Repr

/-- A miner object: `HonestMiner(i)` or `ColludingMiner(i, gap)`, with its
cumulative `blocks_mined` counter.  `gap` is only consulted for colluding
miners. -/
structure Miner where
  kind : MinerKind
  idx : Nat
  gap : Int
  blocks_mined : Nat
deriving DecidableEq, Repr

/-- `self.miner_id`: `f"H{i}"` or `f"C{i}"`. -/
def Miner.miner_id (m : Miner) : MinerId :=
  match m.kind with
  | .honest => .H m.idx
  | .colluding => .C m.idx

/-- `Block.__init__`: id, producer, parent id (`None` for genesis), height. -/
structure Block where
  id : Nat
  miner_id : MinerId
  parent : Option Nat
  height : Nat
deriving DecidableEq, Repr

/-- `Fork.__init__`: the base (divergence point) and current tip of a
tracked losing branch. -/
structure Fork where
  base : Block
  tip : Block
deriving DecidableEq, Repr

/-- `Fork.depth`: `self.tip.height - self.base.height` (Python int). -/
def Fork.depth (f : Fork) : Int :=
  (f.tip.height : Int) - (f.base.height : Int)

/-- The fork registry `self.forks`: a Python dict from block id to `Fork`,
modelled as an insertion-ordered association list with unique keys. -/
abbrev ForkMap := List (Nat × Fork)

/-- Dict lookup by key. -/
def lookupFork : ForkMap → Nat → Option Fork
  | [], _ => none
  | p :: rest, k => if p.1 = k then some p.2 else lookupFork rest k

/-- `d.pop(k, None)`: the value at `k` if present, and the dict without
that key. -/
def forksPop (d : ForkMap) (k : Nat) : Option Fork × ForkMap :=
  match lookupFork d k with
  | none => (none, d)
  | some f => (some f, d.filter (fun p => ¬ (p.1 = k)))

/-- `d[k] = f`: overwrite in place if the key exists, else append. -/
def forksInsert (d : ForkMap) (k : Nat) (f : Fork) : ForkMap :=
  if d.any (fun p => p.1 = k) then
    d.map (fun p => if p.1 = k then (k, f) else p)
  else
    d ++ [(k, f)]

/-- The genesis block `Block(0, "genesis", None, 0)`. -/
def genesisBlock : Block := ⟨0, .genesis, none, 0⟩

/-- `Blockchain` state: the ordered block list, main tip, coalition tip and
fork registry (the Graphviz `dot` field is display glue and is omitted). -/
structure Blockchain where
  blocks : List Block
  tip : Block
  colluding_tip : Block
  forks : ForkMap
deriving DecidableEq, Repr

/-- `Blockchain.__init__`: only the genesis block; both tips at genesis;
empty fork registry. -/
def initChain : Blockchain :=
  ⟨[genesisBlock], genesisBlock, genesisBlock, []⟩

/-- `Blockchain.add_block(miner, parent)`: allocate the next id, compute
the height, append, run fork bookkeeping, then update the two tips. -/
def add_block (bc : Blockchain) (m : Miner) (parent : Block) : Blockchain :=
  let block_id := bc.blocks.length
  let height := parent.height + 1
  let block : Block := ⟨block_id, m.miner_id, some parent.id, height⟩
  let blocks := bc.blocks ++ [block]
  let forks :=
    if parent ≠ bc.tip ∧ height ≤ bc.tip.height then
      match forksPop bc.forks parent.id with
      | (some to_update, rest) => forksInsert rest block_id ⟨to_update.base, block⟩
      | (none, rest) => forksInsert rest block_id ⟨parent, block⟩
    else bc.forks
  let tip := if height > bc.tip.height then block else bc.tip
  let colluding_tip :=
    if m.kind = .colluding ∧ height > bc.colluding_tip.height then block
    else bc.colluding_tip
  ⟨blocks, tip, colluding_tip, forks⟩

/-- `Blockchain.get_longest_chain`: the main tip. -/
def get_longest_chain (bc : Blockchain) : Block := bc.tip

/-- `Blockchain.get_longest_colluding_chain(gap)`: revert to the main tip
when the coalition tip is more than `gap` behind it, else keep the
coalition tip. -/
def get_longest_colluding_chain (bc : Blockchain) (gap : Int) : Block :=
  if (bc.tip.height : Int) > (bc.colluding_tip.height : Int) + gap then bc.tip
  else bc.colluding_tip

/-- `HonestMiner.mine_block` / `ColludingMiner.mine_block`: choose the
parent by strategy and append (the miner's `blocks_mined` increment is
bookkeeping on the miner object, tracked separately by run drivers). -/
def mine_block (m : Miner) (bc : Blockchain) : Blockchain :=
  match m.kind with
  | .honest => add_block bc m (get_longest_chain bc)
  | .colluding => add_block bc m (get_longest_colluding_chain bc m.gap)

/-- `simulate_mining`: each round one (externally drawn) miner mines.  The
random draws are externalized as the list of chosen miners. -/
def runSim (ms : List Miner) (bc : Blockchain) : Blockchain :=
  ms.foldl (fun b m => mine_block m b) bc

/-- A ledger state reachable by some completed run from the initial
chain. -/
def Reachable (bc : Blockchain) : Prop :=
  ∃ ms : List Miner, runSim ms initChain = bc

/-- The canonical-chain walk of `print_statistics`: from a block id, follow
`self.blocks[block_id].parent` until `None`.  Fuel bounds the loop (on
reachable states parent ids strictly decrease, so fuel `blocks.length`
always suffices). -/
def chainWalk (blocks : List Block) : Nat → Option Nat → List Block
  | _, none => []
  | 0, some _ => []
  | fuel + 1, some bid =>
    match blocks.get? bid with
    | none => []
    | some b => b :: chainWalk blocks fuel b.parent

/-- Python `round` to an integer: round half to even. -/
def roundHalfEven (q : ℚ) : ℤ :=
  if q - (⌊q⌋ : ℚ) = 1 / 2 then (if 2 ∣ ⌊q⌋ then ⌊q⌋ else ⌊q⌋ + 1)
  else round q

/-- Python `round(q, 2)`. -/
def pyRound2 (q : ℚ) : ℚ := (roundHalfEven (q * 100) : ℚ) / 100

/-- Per-miner confirmation score (`print_statistics`, the `score`
expression): `0 if miner.blocks_mined == 0 else
round(included/mined * 100, 2)`. -/
def minerScore (mined included : Nat) : ℚ :=
  if mined = 0 then 0 else pyRound2 ((included : ℚ) / (mined : ℚ) * 100)

/-- Aggregate confirmation score (`print_statistics`, honest/colluding
lines): `round(confirmed/mined * 100, 2) if mined > 0 else 100`. -/
def aggregateScore (mined confirmed : Nat) : ℚ :=
  if mined > 0 then pyRound2 ((confirmed : ℚ) / (mined : ℚ) * 100) else 100

/-- The `included_blocks` dict increment: `+= 1`, creating the key at 0
first when absent. -/
def bumpCount (d : List (MinerId × Nat)) (k : MinerId) : List (MinerId × Nat) :=
  if d.any (fun p => p.1 = k) then
    d.map (fun p => if p.1 = k then (p.1, p.2 + 1) else p)
  else d ++ [(k, 1)]

/-- `{miner.miner_id: 0 for miner in miners}` (dict comprehension: later
duplicates keep the existing key). -/
def initCounts (miners : List Miner) : List (MinerId × Nat) :=
  miners.foldl
    (fun d m => if d.any (fun p => p.1 = m.miner_id) then d else d ++ [(m.miner_id, 0)]) []

/-- `included_blocks[k]` after initialization (key always present for
roster miners). -/
def countOf (d : List (MinerId × Nat)) (k : MinerId) : Nat :=
  (d.lookup k).getD 0

/-- The structured data `print_statistics` computes and prints. -/
structure Stats where
  num_forks : Nat
  max_depth : Int
  abandoned : Int
  abandoned_pct : ℚ
  miner_rows : List (MinerId × Nat × Nat × ℚ)
  honest_score : ℚ
  colluding_score : ℚ
deriving DecidableEq, Repr

/-- `Blockchain.print_statistics(miners)` as a data-producing pass.
Returns `none` exactly where the Python raises `ZeroDivisionError`: the
abandonment percentage divides by `len(self.blocks) - 1`. -/
def print_statistics (bc : Blockchain) (miners : List Miner) : Option Stats :=
  let num_forks := bc.forks.length
  let max_depth : Int := bc.forks.foldl (fun acc p => max acc p.2.depth) 0
  let abandoned : Int := bc.forks.foldl (fun acc p => acc + p.2.depth) 0
  let denom : Int := (bc.blocks.length : Int) - 1
  if denom = 0 then none
  else
    let abandoned_pct := pyRound2 ((abandoned : ℚ) / (denom : ℚ) * 100)
    let walk := chainWalk bc.blocks bc.blocks.length (some bc.tip.id)
    let included_blocks := walk.foldl (fun d b => bumpCount d b.miner_id) (initCounts miners)
    let miner_rows := miners.map (fun m =>
      (m.miner_id, m.blocks_mined, countOf included_blocks m.miner_id,
        minerScore m.blocks_mined (countOf included_blocks m.miner_id)))
    let honest_mined := (miners.filter (fun m => m.kind = .honest)).foldl
      (fun acc m => acc + m.blocks_mined) 0
    let honest_confirmed := (miners.filter (fun m => m.kind = .honest)).foldl
      (fun acc m => acc + countOf included_blocks m.miner_id) 0
    let colluding_mined := (miners.filter (fun m => ¬ (m.kind = .honest))).foldl
      (fun acc m => acc + m.blocks_mined) 0
    let colluding_confirmed := (miners.filter (fun m => ¬ (m.kind = .honest))).foldl
      (fun acc m => acc + countOf included_blocks m.miner_id) 0
    some
      { num_forks := num_forks
        max_depth := max_depth
        abandoned := abandoned
        abandoned_pct := abandoned_pct
        miner_rows := miner_rows
        honest_score := aggregateScore honest_mined honest_confirmed
        colluding_score := aggregateScore colluding_mined colluding_confirmed }

/-- Sum of the depths of all fork records. -/
def forkDepthSum (d : ForkMap) : Int :=
  d.foldl (fun acc p => acc + p.2.depth) 0

/-- `HonestMiner(1)`. -/
def mHonest1 : Miner := ⟨.honest, 1, 0, 0⟩

/-- `ColludingMiner(1, 0)` (gap limit 0). -/
def mColluding0 : Miner := ⟨.colluding, 1, 0, 0⟩

/-- `ColludingMiner(1, 1)` (gap limit 1). -/
def mColluding1 : Miner := ⟨.colluding, 1, 1, 0⟩

/-- `ColludingMiner(1, 2)` (gap limit 2). -/
def mColluding2 : Miner := ⟨.colluding, 1, 2, 0⟩

/-- Scenario B of the spec: round 1 the honest miner mines, round 2 the
colluding miner (gap 0) mines. -/
def scenarioB : Blockchain := runSim [mHonest1, mColluding0] initChain

/-- Two rounds with gap 1: honest extends genesis, then colluding mines on
genesis (one block behind the tip), creating a fork record. -/
def step2 : Blockchain := runSim [mHonest1, mColluding1] initChain

/-- Three rounds, honest twice then colluding (gap 2): the colluding block
on genesis is two behind the tip and is tracked as a fork record. -/
def step3 : Blockchain := runSim [mHonest1, mHonest1, mColluding2] initChain

/-- A well-formed block value that is not present in the initial ledger. -/
def strayBlock : Block := ⟨5, .H 9, none, 3⟩

/-- The statistics produced for Scenario B with a roster holding one
honest miner that mined zero blocks. -/
def statsB : Stats :=
  (print_statistics scenarioB [⟨.honest, 2, 0, 0⟩]).getD ⟨0, 0, 0, 0, [], 0, 0⟩

/-- The state invariant maintained by every run from the initial chain: ids
are list indices, genesis sits at index 0, parent links point strictly
downwards with height increments of one, both tips are stored at their
ids, the coalition tip never exceeds the main tip, fork-record keys are
distinct ids of the records' tip blocks, record tips were produced by
colluding miners, and the block count satisfies the fork-conservation
equation. -/
structure Inv (bc : Blockchain) : Prop where
  nonempty : 0 < bc.blocks.length
  ids : ∀ i (h : i < bc.blocks.length), (bc.blocks.get ⟨i, h⟩).id = i
  gen : ∀ h : 0 < bc.blocks.length, bc.blocks.get ⟨0, h⟩ = genesisBlock
  parents : ∀ i (h : i < bc.blocks.length), i ≠ 0 →
    ∃ p, ∃ hpi : p < i, (bc.blocks.get ⟨i, h⟩).parent = some p ∧
      (bc.blocks.get ⟨i, h⟩).height = (bc.blocks.get ⟨p, hpi.trans h⟩).height + 1
  heightle : ∀ i (h : i < bc.blocks.length), (bc.blocks.get ⟨i, h⟩).height ≤ i
  tipIdx : ∃ h : bc.tip.id < bc.blocks.length, bc.blocks.get ⟨bc.tip.id, h⟩ = bc.tip
  ctipIdx : ∃ h : bc.colluding_tip.id < bc.blocks.length,
    bc.blocks.get ⟨bc.colluding_tip.id, h⟩ = bc.colluding_tip
  ctipLe : bc.colluding_tip.height ≤ bc.tip.height
  forkKeysLt : ∀ kf ∈ bc.forks, kf.1 < bc.blocks.length
  forkKeyNodup : (bc.forks.map Prod.fst).Nodup
  forkTip : ∀ kf ∈ bc.forks, kf.2.tip.id = kf.1 ∧
    ∃ h : kf.1 < bc.blocks.length, bc.blocks.get ⟨kf.1, h⟩ = kf.2.tip
  forkTipColluding : ∀ kf ∈ bc.forks, ∃ n, kf.2.tip.miner_id = MinerId.C n
  equation : (bc.blocks.length : Int) - 1 = (bc.tip.height : Int) + forkDepthSum bc.forks

end MinerSim

namespace MinerSim

/-- Unfolding lemma: the block list after an append. -/
theorem add_block_blocks (bc : Blockchain) (m : Miner) (parent : Block) :
    (add_block bc m parent).blocks =
      bc.blocks ++ [⟨bc.blocks.length, m.miner_id, some parent.id, parent.height + 1⟩] := rfl

/-- Unfolding lemma: the main tip after an append. -/
theorem add_block_tip (bc : Blockchain) (m : Miner) (parent : Block) :
    (add_block bc m parent).tip =
      if parent.height + 1 > bc.tip.height then
        ⟨bc.blocks.length, m.miner_id, some parent.id, parent.height + 1⟩
      else bc.tip := rfl

/-- Unfolding lemma: the coalition tip after an append. -/
theorem add_block_ctip (bc : Blockchain) (m : Miner) (parent : Block) :
    (add_block bc m parent).colluding_tip =
      if m.kind = .colluding ∧ parent.height + 1 > bc.colluding_tip.height then
        ⟨bc.blocks.length, m.miner_id, some parent.id, parent.height + 1⟩
      else bc.colluding_tip := rfl

/-- Unfolding lemma: the fork registry after an append. -/
theorem add_block_forks (bc : Blockchain) (m : Miner) (parent : Block) :
    (add_block bc m parent).forks =
      if parent ≠ bc.tip ∧ parent.height + 1 ≤ bc.tip.height then
        match forksPop bc.forks parent.id with
        | (some to_update, rest) => forksInsert rest bc.blocks.length
            ⟨to_update.base, ⟨bc.blocks.length, m.miner_id, some parent.id, parent.height + 1⟩⟩
        | (none, rest) => forksInsert rest bc.blocks.length
            ⟨parent, ⟨bc.blocks.length, m.miner_id, some parent.id, parent.height + 1⟩⟩
      else bc.forks := rfl

/-- Claim C2: for every reachable ledger state and every gap limit, the
coalition-tip query returns the main tip exactly when the main tip's
height exceeds the coalition tip's height plus the gap limit, and returns
the coalition tip otherwise. -/
theorem C2_coalition_tip_gap (bc : Blockchain) (gap : Int) (_hbc : Reachable bc) :
    ((bc.tip.height : Int) > (bc.colluding_tip.height : Int) + gap →
      get_longest_colluding_chain bc gap = bc.tip) ∧
    (¬ ((bc.tip.height : Int) > (bc.colluding_tip.height : Int) + gap) →
      get_longest_colluding_chain bc gap = bc.colluding_tip) := by
  constructor <;> intro h <;> simp [get_longest_colluding_chain, h]

/-- Witness for C2 at the reachable initial chain with gap limit 0. -/
theorem C2_coalition_tip_gap_witness :
    get_longest_colluding_chain initChain 0 = initChain.colluding_tip :=
  (C2_coalition_tip_gap initChain 0 ⟨[], rfl⟩).2 (by decide)

/-- Claim C5, counterexample: appending a block whose declared parent is
absent from the ledger does not fail; the block is silently appended with
a dangling parent reference. -/
theorem C5_counterexample :
    strayBlock ∉ initChain.blocks ∧
    (∀ b ∈ initChain.blocks, b.id ≠ strayBlock.id) ∧
    (add_block initChain mHonest1 strayBlock).blocks =
      initChain.blocks ++ [⟨1, .H 1, some 5, 4⟩] := by decide

/-- Claim C5, amended: the append never checks that the declared parent is
present; for every state, miner and parent value the new block is appended
using the parent's declared id and height, and no error is possible. -/
theorem C5_append_unchecked (bc : Blockchain) (m : Miner) (parent : Block) :
    (add_block bc m parent).blocks =
      bc.blocks ++ [⟨bc.blocks.length, m.miner_id, some parent.id, parent.height + 1⟩] := rfl

/-- Claim C8: the main tip's height never decreases across an append or a
run, the tip only moves when the new block's height strictly exceeds the
current tip's height, and a block of height equal to the tip's height
never replaces the tip. -/
theorem C8_tip_monotone :
    (∀ bc m parent, bc.tip.height ≤ (add_block bc m parent).tip.height) ∧
    (∀ ms bc, bc.tip.height ≤ (runSim ms bc).tip.height) ∧
    (∀ bc m parent, (add_block bc m parent).tip ≠ bc.tip →
      parent.height + 1 > bc.tip.height) ∧
    (∀ bc m parent, parent.height + 1 = bc.tip.height →
      (add_block bc m parent).tip = bc.tip) := by
  have hmono : ∀ bc m parent, bc.tip.height ≤ (add_block bc m parent).tip.height := by
    intro bc m parent
    rw [add_block_tip]
    split
    · next h => exact le_of_lt (lt_of_lt_of_le h (le_refl _))
    · exact le_refl _
  refine ⟨hmono, ?_, ?_, ?_⟩
  · intro ms
    induction ms with
    | nil => intro bc; exact le_refl _
    | cons m ms ih =>
      intro bc
      have h1 : bc.tip.height ≤ (mine_block m bc).tip.height := by
        cases hk : m.kind <;> simp [mine_block, hk, hmono]
      exact le_trans h1 (ih (mine_block m bc))
  · intro bc m parent hne
    by_contra hgt
    apply hne
    rw [add_block_tip, if_neg hgt]
  · intro bc m parent heq
    rw [add_block_tip, if_neg (by omega)]

/-- Witness for C8: a tie in height leaves the tip unchanged. -/
theorem C8_tip_monotone_witness :
    (add_block scenarioB mHonest1 ⟨1, .H 1, some 0, 1⟩).tip = scenarioB.tip :=
  C8_tip_monotone.2.2.2 scenarioB mHonest1 ⟨1, .H 1, some 0, 1⟩ (by decide)

/-- Claim C4, counterexample: running the statistics pass on a ledger that
only holds the genesis block fails (the Python raises `ZeroDivisionError`
computing the abandonment percentage); no neutral result is produced. -/
theorem C4_counterexample :
    print_statistics initChain [mHonest1, mColluding0] = none ∧
    initChain.blocks = [genesisBlock] := by decide

/-- Claim C4, amended: statistics on a genesis-only ledger always fail
with the division by `len(blocks) - 1 = 0`; once any non-genesis block
exists the pass succeeds. -/
theorem C4_stats_genesis_only_fails :
    (∀ miners : List Miner, print_statistics initChain miners = none) ∧
    (∀ (bc : Blockchain) (miners : List Miner), 2 ≤ bc.blocks.length →
      (print_statistics bc miners).isSome = true) := by
  constructor
  · intro miners; rfl
  · intro bc miners hlen
    simp only [print_statistics]
    split
    · omega
    · rfl

/-- Witness for C4 on Scenario B's three-block ledger. -/
theorem C4_stats_genesis_only_fails_witness :
    (print_statistics scenarioB []).isSome = true :=
  C4_stats_genesis_only_fails.2 scenarioB [] (by decide)

end MinerSim

namespace MinerSim

/-- Claim C6, counterexample: in Scenario B (1 honest + 1 colluding miner
with gap limit 0, honest mines round 1, colluding mines round 2) the
colluding block extends the honest block (parent id 1, not genesis 0) and
no fork record is created. -/
theorem C6_counterexample :
    (scenarioB.blocks.get? 2).map Block.parent = some (some 1) ∧
    some (some 1) ≠ some (some (0 : Nat)) ∧
    scenarioB.forks.length = 0 := by decide

/-- Claim C6, amended: with gap limit 0 the coalition tip is one behind
the main tip after round 1, so the colluding miner reverts to the main
tip: its block extends the honest block, becomes the new tip at height 2,
and no fork record is created. -/
theorem C6_scenarioB_gap0 :
    scenarioB.blocks =
      [genesisBlock, ⟨1, .H 1, some 0, 1⟩, ⟨2, .C 1, some 1, 2⟩] ∧
    scenarioB.tip = ⟨2, .C 1, some 1, 2⟩ ∧
    scenarioB.colluding_tip = ⟨2, .C 1, some 1, 2⟩ ∧
    scenarioB.forks = [] := by decide

/-- Claim C7, counterexample: in the reachable state `step2` the registry
has a record keyed 2; mining a colluding block whose parent is that
record's tip block (id 2) extends the branch past the main tip, yet the
registry is unchanged: the record stays keyed 2 and no record appears
under the new block's id 3. -/
theorem C7_counterexample :
    (lookupFork step2.forks 2).isSome = true ∧
    ((mine_block mColluding1 step2).blocks.get? 3).map Block.parent = some (some 2) ∧
    (mine_block mColluding1 step2).forks = step2.forks ∧
    lookupFork (mine_block mColluding1 step2).forks 3 = none := by decide

/-- Claim C7, amended: extending a tracked branch replaces its record
(removing the old key and inserting the same base with the new block
under the new block's id) only when the extending block is itself on a
losing branch, i.e. its parent differs from the main tip and its height
does not exceed the main tip's height; an append whose height exceeds the
main tip's height leaves the registry unchanged even when its parent's id
keys a record. -/
theorem C7_fork_record_replacement :
    (∀ (bc : Blockchain) (m : Miner) (parent : Block) (f : Fork),
      parent ≠ bc.tip → parent.height + 1 ≤ bc.tip.height →
      lookupFork bc.forks parent.id = some f →
      (add_block bc m parent).forks =
        forksInsert (bc.forks.filter (fun p => ¬ (p.1 = parent.id))) bc.blocks.length
          ⟨f.base, ⟨bc.blocks.length, m.miner_id, some parent.id, parent.height + 1⟩⟩) ∧
    (∀ (bc : Blockchain) (m : Miner) (parent : Block),
      parent.height + 1 > bc.tip.height →
      (add_block bc m parent).forks = bc.forks) := by
  constructor
  · intro bc m parent f hne hle hf
    rw [add_block_forks, if_pos ⟨hne, hle⟩]
    simp only [forksPop, hf]
  · intro bc m parent hgt
    rw [add_block_forks, if_neg (by omega)]

/-- Witness for C7: in the reachable state `step3` the record keyed 3 is
replaced when its tip block is extended while still losing. -/
theorem C7_fork_record_replacement_witness :
    (add_block step3 mColluding2 ⟨3, .C 1, some 0, 1⟩).forks =
      forksInsert (step3.forks.filter (fun p => ¬ (p.1 = 3))) step3.blocks.length
        ⟨genesisBlock, ⟨step3.blocks.length, mColluding2.miner_id, some 3, 2⟩⟩ :=
  C7_fork_record_replacement.1 step3 mColluding2 ⟨3, .C 1, some 0, 1⟩
    ⟨genesisBlock, ⟨3, .C 1, some 0, 1⟩⟩ (by decide) (by decide) (by decide)

/-- Helper: the statistics pass on Scenario B with the zero-mined roster
miner succeeds and produces `statsB`. -/
theorem statsB_spec : print_statistics scenarioB [⟨.honest, 2, 0, 0⟩] = some statsB := rfl

/-- Helper: the per-miner rows of `statsB`: the zero-mined miner's score
is 0. -/
theorem statsB_rows : statsB.miner_rows = [(.H 2, 0, 0, (0 : ℚ))] := rfl

/-- Claim C3, counterexample: a roster miner that mined zero blocks is
reported with confirmation score 0, not 100. -/
theorem C3_counterexample :
    print_statistics scenarioB [⟨.honest, 2, 0, 0⟩] = some statsB ∧
    statsB.miner_rows = [(.H 2, 0, 0, (0 : ℚ))] ∧
    (0 : ℚ) ≠ 100 :=
  ⟨statsB_spec, statsB_rows, by norm_num⟩

/-- Claim C3, amended: in the per-miner statistics a miner that mined zero
blocks is reported with score 0 (the 100-by-convention rule applies only
to the aggregate honest/colluding scores), and a miner with at least one
mined block is reported with score round(included / mined × 100, 2). -/
theorem C3_miner_score (bc : Blockchain) (miners : List Miner) (st : Stats)
    (hst : print_statistics bc miners = some st) :
    ∀ mid mined included score, (mid, mined, included, score) ∈ st.miner_rows →
      (mined = 0 → score = 0) ∧
      (mined ≠ 0 → score = pyRound2 ((included : ℚ) / (mined : ℚ) * 100)) := by
  intro mid mined included score hmem
  simp only [print_statistics] at hst
  split at hst
  · exact absurd hst (by simp)
  · rw [Option.some_inj] at hst
    subst hst
    simp only [List.mem_map] at hmem
    obtain ⟨m, _, hm⟩ := hmem
    rw [Prod.ext_iff] at hm
    obtain ⟨_, hm2⟩ := hm
    rw [Prod.ext_iff] at hm2
    obtain ⟨hmined, hm3⟩ := hm2
    rw [Prod.ext_iff] at hm3
    obtain ⟨hincluded, hscore⟩ := hm3
    simp only at hmined hincluded hscore
    constructor
    · intro h0
      rw [← hscore, minerScore, if_pos (hmined.trans h0)]
    · intro h0
      rw [← hscore, minerScore, if_neg (by rw [hmined]; exact h0), hmined, hincluded]

/-- Witness for C3 on Scenario B with a zero-mined roster miner. -/
theorem C3_miner_score_witness : (0 : ℚ) = 0 :=
  (C3_miner_score scenarioB [⟨.honest, 2, 0, 0⟩] statsB statsB_spec
    (.H 2) 0 0 0 (by rw [statsB_rows]; exact List.mem_singleton.mpr rfl)).1 rfl

end MinerSim

namespace MinerSim

/-- Helper: unfold `forkDepthSum` over an arbitrary accumulator. -/
theorem forkDepthSum_foldl (d : ForkMap) (a : Int) :
    d.foldl (fun acc p => acc + p.2.depth) a = a + forkDepthSum d := by
  induction d generalizing a with
  | nil => simp [forkDepthSum]
  | cons p rest ih =>
    simp only [forkDepthSum, List.foldl_cons] at *
    rw [ih, ih (0 + p.2.depth)]
    ring

/-- Helper: `forkDepthSum` of a cons. -/
theorem forkDepthSum_cons (p : Nat × Fork) (d : ForkMap) :
    forkDepthSum (p :: d) = p.2.depth + forkDepthSum d := by
  calc forkDepthSum (p :: d)
      = d.foldl (fun acc q => acc + q.2.depth) (0 + p.2.depth) := rfl
    _ = (0 + p.2.depth) + forkDepthSum d := forkDepthSum_foldl d _
    _ = p.2.depth + forkDepthSum d := by ring

/-- Helper: `forkDepthSum` of an append. -/
theorem forkDepthSum_append (d e : ForkMap) :
    forkDepthSum (d ++ e) = forkDepthSum d + forkDepthSum e := by
  induction d with
  | nil => simp [forkDepthSum]
  | cons p rest ih =>
    rw [List.cons_append, forkDepthSum_cons, forkDepthSum_cons, ih]
    ring

/-- Helper: filtering out a key that does not occur is the identity. -/
theorem filter_key_id (d : ForkMap) (k : Nat) (h : ∀ p ∈ d, p.1 ≠ k) :
    d.filter (fun p => ¬ (p.1 = k)) = d := by
  induction d with
  | nil => rfl
  | cons p rest ih =>
    have hp : p.1 ≠ k := h p (List.mem_cons_self p rest)
    rw [List.filter_cons, if_pos (by simp [hp]),
      ih (fun q hq => h q (List.mem_cons_of_mem p hq))]

/-- Helper: popping a present key splits the depth sum. -/
theorem forkDepthSum_pop (d : ForkMap) (k : Nat) (f : Fork)
    (hnd : (d.map Prod.fst).Nodup) (hl : lookupFork d k = some f) :
    forkDepthSum d = f.depth + forkDepthSum (d.filter (fun p => ¬ (p.1 = k))) := by
  induction d with
  | nil => simp [lookupFork] at hl
  | cons p rest ih =>
    rw [List.map_cons, List.nodup_cons] at hnd
    obtain ⟨hk, hnd2⟩ := hnd
    rw [lookupFork] at hl
    by_cases hpk : p.1 = k
    · rw [if_pos hpk] at hl
      rw [Option.some_inj] at hl
      subst hl
      rw [List.filter_cons, if_neg (by simp [hpk]), forkDepthSum_cons]
      congr 1
      rw [filter_key_id]
      intro q hq hq2
      have hqp : q.1 = p.1 := hq2.trans hpk.symm
      exact hk (hqp ▸ List.mem_map_of_mem Prod.fst hq)
    · rw [if_neg hpk] at hl
      rw [List.filter_cons, if_pos (by simp [hpk]), forkDepthSum_cons,
        forkDepthSum_cons, ih hnd2 hl]
      ring

/-- Helper: inserting a fresh key appends the entry. -/
theorem forksInsert_fresh (d : ForkMap) (k : Nat) (f : Fork)
    (h : ∀ p ∈ d, p.1 ≠ k) : forksInsert d k f = d ++ [(k, f)] := by
  rw [forksInsert, if_neg]
  simp only [List.any_eq_true, decide_eq_true_eq, not_exists, not_and]
  intro p hp
  exact h p hp

end MinerSim

namespace MinerSim

/-- Helper: indexing an extended block list below the old length is
unchanged. -/
theorem get_append_left (l : List Block) (b : Block) (i : Nat)
    (h : i < l.length) (h2 : i < (l ++ [b]).length) :
    (l ++ [b]).get ⟨i, h2⟩ = l.get ⟨i, h⟩ := by
  simp [List.getElem_append_left, h]

/-- Helper: indexing an extended block list at the old length yields the
appended block. -/
theorem get_append_last (l : List Block) (b : Block)
    (h : l.length < (l ++ [b]).length) :
    (l ++ [b]).get ⟨l.length, h⟩ = b := by
  simp

/-- Helper: a successful dict lookup means the entry is in the list. -/
theorem lookupFork_mem (d : ForkMap) (k : Nat) (f : Fork)
    (h : lookupFork d k = some f) : (k, f) ∈ d := by
  induction d with
  | nil => simp [lookupFork] at h
  | cons p rest ih =>
    rw [lookupFork] at h
    by_cases hpk : p.1 = k
    · rw [if_pos hpk] at h
      rw [Option.some_inj] at h
      have hkf : (k, f) = p := by rw [← hpk, ← h]
      rw [hkf]
      exact List.mem_cons_self p rest
    · exact List.mem_cons_of_mem p (ih (by rwa [if_neg hpk] at h))

/-- Helper: key distinctness survives filtering. -/
theorem nodup_filter_keys (d : ForkMap) (k : Nat)
    (h : (d.map Prod.fst).Nodup) :
    ((d.filter (fun p => ¬ (p.1 = k))).map Prod.fst).Nodup :=
  ((List.filter_sublist d).map Prod.fst).nodup h

end MinerSim

namespace MinerSim

/-- Helper: the indexed-ledger invariants are preserved when a block with
the next id, a valid parent index and the parent's height plus one is
appended. -/
theorem blocks_append_inv (blocks : List Block) (blk : Block)
    (h0 : 0 < blocks.length)
    (hids : ∀ i (h : i < blocks.length), (blocks.get ⟨i, h⟩).id = i)
    (hgen : ∀ h : 0 < blocks.length, blocks.get ⟨0, h⟩ = genesisBlock)
    (hparents : ∀ i (h : i < blocks.length), i ≠ 0 →
      ∃ p, ∃ hpi : p < i, (blocks.get ⟨i, h⟩).parent = some p ∧
        (blocks.get ⟨i, h⟩).height = (blocks.get ⟨p, hpi.trans h⟩).height + 1)
    (hhle : ∀ i (h : i < blocks.length), (blocks.get ⟨i, h⟩).height ≤ i)
    (pid : Nat) (hpid : pid < blocks.length)
    (hblk : blk.id = blocks.length ∧ blk.parent = some pid ∧
      blk.height = (blocks.get ⟨pid, hpid⟩).height + 1) :
    (0 < (blocks ++ [blk]).length) ∧
    (∀ i (h : i < (blocks ++ [blk]).length), ((blocks ++ [blk]).get ⟨i, h⟩).id = i) ∧
    (∀ h : 0 < (blocks ++ [blk]).length, (blocks ++ [blk]).get ⟨0, h⟩ = genesisBlock) ∧
    (∀ i (h : i < (blocks ++ [blk]).length), i ≠ 0 →
      ∃ p, ∃ hpi : p < i, ((blocks ++ [blk]).get ⟨i, h⟩).parent = some p ∧
        ((blocks ++ [blk]).get ⟨i, h⟩).height =
          ((blocks ++ [blk]).get ⟨p, hpi.trans h⟩).height + 1) ∧
    (∀ i (h : i < (blocks ++ [blk]).length), ((blocks ++ [blk]).get ⟨i, h⟩).height ≤ i) := by
  obtain ⟨hblk_id, hblk_par, hblk_h⟩ := hblk
  have hlen : (blocks ++ [blk]).length = blocks.length + 1 := by simp
  refine ⟨?_, ?_, ?_, ?_, ?_⟩
  · simp
  · intro i h
    by_cases hi : i < blocks.length
    · rw [get_append_left _ _ _ hi]
      exact hids i hi
    · have hie : i = blocks.length := by rw [hlen] at h; omega
      subst hie
      rw [get_append_last]
      exact hblk_id
  · intro h
    rw [get_append_left _ _ _ h0]
    exact hgen h0
  · intro i h hne
    by_cases hi : i < blocks.length
    · obtain ⟨p, hpi, hp1, hp2⟩ := hparents i hi hne
      refine ⟨p, hpi, ?_, ?_⟩
      · rw [get_append_left _ _ _ hi]
        exact hp1
      · rw [get_append_left _ _ _ hi, get_append_left _ _ _ (hpi.trans hi)]
        exact hp2
    · have hie : i = blocks.length := by rw [hlen] at h; omega
      subst hie
      refine ⟨pid, hpid, ?_, ?_⟩
      · rw [get_append_last]
        exact hblk_par
      · rw [get_append_last, get_append_left _ _ _ hpid]
        exact hblk_h
  · intro i h
    by_cases hi : i < blocks.length
    · rw [get_append_left _ _ _ hi]
      exact le_trans (hhle i hi) (le_refl i)
    · have hie : i = blocks.length := by rw [hlen] at h; omega
      subst hie
      rw [get_append_last, hblk_h]
      have h2 := hhle pid hpid
      omega

end MinerSim

namespace MinerSim

/-- Helper: the run invariant is preserved by any append whose parent is
the main tip or (for a colluding miner) the coalition tip. -/
theorem inv_add (bc : Blockchain) (m : Miner) (parent : Block)
    (hpar : parent = bc.tip ∨ (parent = bc.colluding_tip ∧ m.kind = .colluding))
    (hInv : Inv bc) : Inv (add_block bc m parent) := by
  obtain ⟨hpid, hpget⟩ : ∃ h : parent.id < bc.blocks.length,
      bc.blocks.get ⟨parent.id, h⟩ = parent := by
    rcases hpar with h | ⟨h, _⟩
    · rw [h]; exact hInv.tipIdx
    · rw [h]; exact hInv.ctipIdx
  have hph : parent.height ≤ parent.id := by
    have h2 := hInv.heightle parent.id hpid
    rwa [hpget] at h2
  have hbp := blocks_append_inv bc.blocks
    ⟨bc.blocks.length, m.miner_id, some parent.id, parent.height + 1⟩
    hInv.nonempty hInv.ids hInv.gen hInv.parents hInv.heightle
    parent.id hpid ⟨rfl, rfl, by rw [hpget]⟩
  obtain ⟨h0n, hidsn, hgenn, hparentsn, hhlen⟩ := hbp
  have hlen : (add_block bc m parent).blocks.length = bc.blocks.length + 1 := by
    rw [add_block_blocks, List.length_append, List.length_singleton]
  have hgetlast : ∀ h2 : bc.blocks.length < (add_block bc m parent).blocks.length,
      (add_block bc m parent).blocks.get ⟨bc.blocks.length, h2⟩ =
      ⟨bc.blocks.length, m.miner_id, some parent.id, parent.height + 1⟩ := by
    intro h2
    exact get_append_last bc.blocks _ h2
  have hgetold : ∀ i (h : i < bc.blocks.length)
      (h2 : i < (add_block bc m parent).blocks.length),
      (add_block bc m parent).blocks.get ⟨i, h2⟩ = bc.blocks.get ⟨i, h⟩ := by
    intro i h h2
    exact get_append_left bc.blocks _ i h h2
  by_cases hpt : parent = bc.tip
  · -- the parent is the main tip: no fork bookkeeping, the tip advances
    have htip : (add_block bc m parent).tip =
        ⟨bc.blocks.length, m.miner_id, some parent.id, parent.height + 1⟩ := by
      rw [add_block_tip, if_pos]
      rw [hpt]
      omega
    have hforks : (add_block bc m parent).forks = bc.forks := by
      rw [add_block_forks, if_neg]
      intro hcon
      exact hcon.1 hpt
    have h4 : bc.tip.height = parent.height := by rw [hpt]
    refine ⟨?_, hidsn, hgenn, hparentsn, hhlen, ?_, ?_, ?_, ?_, ?_, ?_, ?_, ?_⟩
    · rw [hlen]; omega
    · rw [htip]
      refine ⟨by rw [hlen]; exact Nat.lt_succ_self bc.blocks.length, hgetlast _⟩
    · rw [add_block_ctip]
      split
      · refine ⟨by rw [hlen]; exact Nat.lt_succ_self bc.blocks.length, hgetlast _⟩
      · obtain ⟨hc1, hc2⟩ := hInv.ctipIdx
        refine ⟨by rw [hlen]; omega, ?_⟩
        rw [hgetold _ hc1 _]
        exact hc2
    · rw [htip, add_block_ctip]
      split
      · exact le_refl _
      · show bc.colluding_tip.height ≤ parent.height + 1
        have h3 := hInv.ctipLe
        omega
    · rw [hforks, hlen]
      intro kf hkf
      exact lt_trans (hInv.forkKeysLt kf hkf) (by omega)
    · rw [hforks]
      exact hInv.forkKeyNodup
    · rw [hforks]
      intro kf hkf
      obtain ⟨ht1, ht2, ht3⟩ := hInv.forkTip kf hkf
      refine ⟨ht1, by rw [hlen]; omega, ?_⟩
      rw [hgetold _ ht2 _]
      exact ht3
    · rw [hforks]
      exact hInv.forkTipColluding
    · rw [hlen, htip, hforks]
      show ((bc.blocks.length + 1 : Nat) : Int) - 1 =
        ((parent.height + 1 : Nat) : Int) + forkDepthSum bc.forks
      have heq := hInv.equation
      push_cast at heq ⊢
      omega
  · -- the parent is the coalition tip and differs from the main tip
    have hpc : parent = bc.colluding_tip := by
      rcases hpar with h | ⟨h, _⟩
      · exact absurd h hpt
      · exact h
    have hk : m.kind = .colluding := by
      rcases hpar with h | ⟨_, h⟩
      · exact absurd h hpt
      · exact h
    have hpch : parent.height = bc.colluding_tip.height := by rw [hpc]
    have hctip : (add_block bc m parent).colluding_tip =
        ⟨bc.blocks.length, m.miner_id, some parent.id, parent.height + 1⟩ := by
      rw [add_block_ctip, if_pos]
      exact ⟨hk, by omega⟩
    have hcolid : ∃ j, m.miner_id = MinerId.C j := by
      refine ⟨m.idx, ?_⟩
      rw [Miner.miner_id, hk]
    by_cases hle : parent.height + 1 ≤ bc.tip.height
    · -- losing-branch append: fork bookkeeping runs, the tip stays put
      have htip : (add_block bc m parent).tip = bc.tip := by
        rw [add_block_tip, if_neg]
        omega
      have hkeyfresh : ∀ p ∈ bc.forks, p.1 ≠ bc.blocks.length := by
        intro p hp
        have := hInv.forkKeysLt p hp
        omega
      obtain ⟨rest, base, hforks, hsub, hnodupr, hsum⟩ :
          ∃ (rest : ForkMap) (base : Block),
            (add_block bc m parent).forks = rest ++
              [(bc.blocks.length,
                ⟨base, ⟨bc.blocks.length, m.miner_id, some parent.id, parent.height + 1⟩⟩)] ∧
            (∀ p ∈ rest, p ∈ bc.forks) ∧ ((rest.map Prod.fst).Nodup) ∧
            forkDepthSum (add_block bc m parent).forks =
              forkDepthSum bc.forks + 1 := by
        have hguard : (add_block bc m parent).forks =
            match forksPop bc.forks parent.id with
            | (some to_update, rest) => forksInsert rest bc.blocks.length
                ⟨to_update.base,
                 ⟨bc.blocks.length, m.miner_id, some parent.id, parent.height + 1⟩⟩
            | (none, rest) => forksInsert rest bc.blocks.length
                ⟨parent, ⟨bc.blocks.length, m.miner_id, some parent.id, parent.height + 1⟩⟩ := by
          rw [add_block_forks, if_pos ⟨hpt, hle⟩]
        cases hc : lookupFork bc.forks parent.id with
        | none =>
          refine ⟨bc.forks, parent, ?_, fun p hp => hp, hInv.forkKeyNodup, ?_⟩
          · rw [hguard]
            simp only [forksPop, hc]
            exact forksInsert_fresh bc.forks bc.blocks.length _ hkeyfresh
          · rw [hguard]
            simp only [forksPop, hc]
            rw [forksInsert_fresh bc.forks bc.blocks.length _ hkeyfresh,
              forkDepthSum_append, forkDepthSum_cons]
            have hd : Fork.depth
                ⟨parent, ⟨bc.blocks.length, m.miner_id, some parent.id, parent.height + 1⟩⟩
                = 1 := by
              show ((parent.height + 1 : Nat) : Int) - (parent.height : Int) = 1
              push_cast
              ring
            rw [hd]
            show forkDepthSum bc.forks + (1 + forkDepthSum []) = forkDepthSum bc.forks + 1
            show forkDepthSum bc.forks + (1 + 0) = forkDepthSum bc.forks + 1
            ring
        | some f =>
          have hmem := lookupFork_mem bc.forks parent.id f hc
          obtain ⟨ht1, ht2, ht3⟩ := hInv.forkTip (parent.id, f) hmem
          have hft : f.tip = parent := by
            have h6 : bc.blocks.get ⟨parent.id, hpid⟩ = f.tip := ht3
            rw [← h6]
            exact hpget
          have hfsub : ∀ p ∈ bc.forks.filter (fun p => ¬ (p.1 = parent.id)), p ∈ bc.forks :=
            fun p hp => List.mem_of_mem_filter hp
          refine ⟨bc.forks.filter (fun p => ¬ (p.1 = parent.id)), f.base, ?_,
            hfsub, nodup_filter_keys bc.forks parent.id hInv.forkKeyNodup, ?_⟩
          · rw [hguard]
            simp only [forksPop, hc]
            exact forksInsert_fresh _ bc.blocks.length _
              (fun p hp => hkeyfresh p (hfsub p hp))
          · rw [hguard]
            simp only [forksPop, hc]
            rw [forksInsert_fresh _ bc.blocks.length _
              (fun p hp => hkeyfresh p (hfsub p hp)), forkDepthSum_append, forkDepthSum_cons]
            have hpop := forkDepthSum_pop bc.forks parent.id f hInv.forkKeyNodup hc
            have hd : Fork.depth
                ⟨f.base, ⟨bc.blocks.length, m.miner_id, some parent.id, parent.height + 1⟩⟩
                = f.depth + 1 := by
              show ((parent.height + 1 : Nat) : Int) - (f.base.height : Int) = f.depth + 1
              rw [Fork.depth, hft]
              push_cast
              ring
            rw [hd]
            show forkDepthSum (bc.forks.filter (fun p => ¬ (p.1 = parent.id))) +
              (f.depth + 1 + forkDepthSum []) = forkDepthSum bc.forks + 1
            show forkDepthSum (bc.forks.filter (fun p => ¬ (p.1 = parent.id))) +
              (f.depth + 1 + 0) = forkDepthSum bc.forks + 1
            rw [hpop]
            ring
      refine ⟨?_, hidsn, hgenn, hparentsn, hhlen, ?_, ?_, ?_, ?_, ?_, ?_, ?_, ?_⟩
      · rw [hlen]; omega
      · rw [htip]
        obtain ⟨hc1, hc2⟩ := hInv.tipIdx
        refine ⟨by rw [hlen]; omega, ?_⟩
        rw [hgetold _ hc1 _]
        exact hc2
      · rw [hctip]
        refine ⟨by rw [hlen]; exact Nat.lt_succ_self bc.blocks.length, hgetlast _⟩
      · rw [hctip, htip]
        show parent.height + 1 ≤ bc.tip.height
        exact hle
      · rw [hforks, hlen]
        intro kf hkf
        rcases List.mem_append.mp hkf with hl | hr
        · exact lt_trans (hInv.forkKeysLt kf (hsub kf hl)) (by omega)
        · have : kf = (bc.blocks.length, _) := List.mem_singleton.mp hr
          rw [this]
          omega
      · rw [hforks, List.map_append]
        rw [List.nodup_append]
        refine ⟨hnodupr, List.nodup_singleton _, ?_⟩
        intro a ha hb
        simp only [List.map_cons, List.map_nil, List.mem_singleton] at hb
        subst hb
        obtain ⟨p, hp, hp2⟩ := List.mem_map.mp ha
        exact hkeyfresh p (hsub p hp) hp2
      · rw [hforks]
        intro kf hkf
        rcases List.mem_append.mp hkf with hl | hr
        · obtain ⟨ht1, ht2, ht3⟩ := hInv.forkTip kf (hsub kf hl)
          refine ⟨ht1, by rw [hlen]; omega, ?_⟩
          rw [hgetold _ ht2 _]
          exact ht3
        · have heq : kf = (bc.blocks.length, _) := List.mem_singleton.mp hr
          rw [heq]
          refine ⟨rfl, by rw [hlen]; omega, hgetlast _⟩
      · rw [hforks]
        intro kf hkf
        rcases List.mem_append.mp hkf with hl | hr
        · exact hInv.forkTipColluding kf (hsub kf hl)
        · have heq : kf = (bc.blocks.length, _) := List.mem_singleton.mp hr
          rw [heq]
          exact hcolid
      · rw [hlen, htip, hsum]
        have heq := hInv.equation
        push_cast at heq ⊢
        omega
    · -- the private branch overtakes: the tip advances, no bookkeeping
      have hgt : bc.tip.height < parent.height + 1 := by omega
      have hthe : bc.tip.height = parent.height := by
        have h5 := hInv.ctipLe
        omega
      have htip : (add_block bc m parent).tip =
          ⟨bc.blocks.length, m.miner_id, some parent.id, parent.height + 1⟩ := by
        rw [add_block_tip, if_pos hgt]
      have hforks : (add_block bc m parent).forks = bc.forks := by
        rw [add_block_forks, if_neg]
        intro hcon
        omega
      refine ⟨?_, hidsn, hgenn, hparentsn, hhlen, ?_, ?_, ?_, ?_, ?_, ?_, ?_, ?_⟩
      · rw [hlen]; omega
      · rw [htip]
        refine ⟨by rw [hlen]; exact Nat.lt_succ_self bc.blocks.length, hgetlast _⟩
      · rw [hctip]
        refine ⟨by rw [hlen]; exact Nat.lt_succ_self bc.blocks.length, hgetlast _⟩
      · rw [hctip, htip]
      · rw [hforks, hlen]
        intro kf hkf
        exact lt_trans (hInv.forkKeysLt kf hkf) (by omega)
      · rw [hforks]
        exact hInv.forkKeyNodup
      · rw [hforks]
        intro kf hkf
        obtain ⟨ht1, ht2, ht3⟩ := hInv.forkTip kf hkf
        refine ⟨ht1, by rw [hlen]; omega, ?_⟩
        rw [hgetold _ ht2 _]
        exact ht3
      · rw [hforks]
        exact hInv.forkTipColluding
      · rw [hlen, htip, hforks]
        show ((bc.blocks.length + 1 : Nat) : Int) - 1 =
          ((parent.height + 1 : Nat) : Int) + forkDepthSum bc.forks
        have heq := hInv.equation
        push_cast at heq ⊢
        omega

end MinerSim

namespace MinerSim

/-- Helper: the run invariant is preserved by each simulated round. -/
theorem inv_mine (m : Miner) (bc : Blockchain) (hInv : Inv bc) :
    Inv (mine_block m bc) := by
  cases hk : m.kind with
  | honest =>
    rw [mine_block, hk]
    exact inv_add bc m bc.tip (Or.inl rfl) hInv
  | colluding =>
    rw [mine_block, hk]
    rw [get_longest_colluding_chain]
    by_cases hgap : (bc.tip.height : Int) > (bc.colluding_tip.height : Int) + m.gap
    · rw [if_pos hgap]
      exact inv_add bc m bc.tip (Or.inl rfl) hInv
    · rw [if_neg hgap]
      exact inv_add bc m bc.colluding_tip (Or.inr ⟨rfl, hk⟩) hInv

/-- Helper: the initial chain satisfies the run invariant. -/
theorem inv_init : Inv initChain := by
  refine ⟨?_, ?_, ?_, ?_, ?_, ?_, ?_, ?_, ?_, ?_, ?_, ?_, ?_⟩
  · decide
  · intro i h
    have h1 : i < 1 := h
    have h2 : i = 0 := by omega
    subst h2
    rfl
  · intro h
    rfl
  · intro i h hne
    have h1 : i < 1 := h
    omega
  · intro i h
    have h1 : i < 1 := h
    have h2 : i = 0 := by omega
    subst h2
    exact le_refl 0
  · exact ⟨by decide, rfl⟩
  · exact ⟨by decide, rfl⟩
  · exact le_refl _
  · intro kf hkf
    exact absurd hkf (List.not_mem_nil kf)
  · exact List.nodup_nil
  · intro kf hkf
    exact absurd hkf (List.not_mem_nil kf)
  · intro kf hkf
    exact absurd hkf (List.not_mem_nil kf)
  · decide

/-- Helper: the run invariant holds along every run. -/
theorem inv_runSim (ms : List Miner) (bc : Blockchain) (hInv : Inv bc) :
    Inv (runSim ms bc) := by
  induction ms generalizing bc with
  | nil => exact hInv
  | cons m rest ih => exact ih (mine_block m bc) (inv_mine m bc hInv)

/-- Helper: every state of a completed run satisfies the invariant. -/
theorem inv_reachable (ms : List Miner) : Inv (runSim ms initChain) :=
  inv_runSim ms initChain inv_init

/-- Helper: under the invariant, the parent walk from a stored block visits
exactly `height + 1` blocks when given at least that much fuel. -/
theorem chainWalk_length (bc : Blockchain) (hInv : Inv bc) :
    ∀ (fuel i : Nat) (h : i < bc.blocks.length),
      (bc.blocks.get ⟨i, h⟩).height + 1 ≤ fuel →
      (chainWalk bc.blocks fuel (some i)).length = (bc.blocks.get ⟨i, h⟩).height + 1 := by
  intro fuel
  induction fuel with
  | zero =>
    intro i h hf
    omega
  | succ n ih =>
    intro i h hf
    have hget : bc.blocks.get? i = some (bc.blocks.get ⟨i, h⟩) := by
      rw [List.get?_eq_get]
    rw [chainWalk]
    rw [hget]
    simp only [List.length_cons]
    by_cases hi : i = 0
    · subst hi
      have hg := hInv.gen h
      rw [hg]
      show (chainWalk bc.blocks n none).length + 1 = genesisBlock.height + 1
      rw [chainWalk]
      rfl
    · obtain ⟨p, hpi, hp1, hp2⟩ := hInv.parents i h hi
      rw [hp1]
      have hrec := ih p (hpi.trans h) (by omega)
      rw [hrec, hp2]
end MinerSim

namespace MinerSim

/-- Claim C1: for any completed run, the number of non-genesis blocks
equals the length of the canonical chain (the parent walk from the main
tip) excluding genesis, plus the sum of the depths of all fork records. -/
theorem C1_fork_conservation (ms : List Miner) :
    ((runSim ms initChain).blocks.length : Int) - 1 =
      (((chainWalk (runSim ms initChain).blocks (runSim ms initChain).blocks.length
          (some (runSim ms initChain).tip.id)).length : Int) - 1) +
        forkDepthSum (runSim ms initChain).forks := by
  have hInv := inv_reachable ms
  obtain ⟨htid, htget⟩ := hInv.tipIdx
  have h2 := hInv.heightle _ htid
  have hwl := chainWalk_length _ hInv ((runSim ms initChain).blocks.length)
    (runSim ms initChain).tip.id htid (by omega)
  rw [htget] at hwl
  rw [hwl]
  have heq := hInv.equation
  push_cast at heq ⊢
  omega

/-- Claim C9: after every append of a run, block ids are exactly the
indices of the stored block sequence (genesis, with id 0, at index 0), and
each non-genesis block's stored parent id is a smaller index at which a
block with that id and one smaller height sits, so indexing by a stored
parent id retrieves the parent. -/
theorem C9_ids_are_indices (ms : List Miner) :
    (∀ i (h : i < (runSim ms initChain).blocks.length),
      ((runSim ms initChain).blocks.get ⟨i, h⟩).id = i) ∧
    (∀ h : 0 < (runSim ms initChain).blocks.length,
      (runSim ms initChain).blocks.get ⟨0, h⟩ = genesisBlock) ∧
    (∀ i (h : i < (runSim ms initChain).blocks.length), i ≠ 0 →
      ∃ p, ∃ hpi : p < i,
        ((runSim ms initChain).blocks.get ⟨i, h⟩).parent = some p ∧
        ((runSim ms initChain).blocks.get ⟨p, hpi.trans h⟩).id = p ∧
        ((runSim ms initChain).blocks.get ⟨i, h⟩).height =
          ((runSim ms initChain).blocks.get ⟨p, hpi.trans h⟩).height + 1) := by
  have hInv := inv_reachable ms
  refine ⟨hInv.ids, hInv.gen, ?_⟩
  intro i h hne
  obtain ⟨p, hpi, hp1, hp2⟩ := hInv.parents i h hne
  exact ⟨p, hpi, hp1, hInv.ids p (hpi.trans h), hp2⟩

/-- Witness for C9 at the empty run and index 0. -/
theorem C9_ids_are_indices_witness :
    (initChain.blocks.get ⟨0, Nat.one_pos⟩).id = 0 :=
  (C9_ids_are_indices []).1 0 Nat.one_pos

/-- Claim C10: a block mined by an honest miner never creates or extends a
fork record (its chosen parent is the main tip, so the registry is
unchanged by its append), and consequently the tip block of every fork
record of any completed run was mined by a colluding miner. -/
theorem C10_fork_tips_colluding :
    (∀ (bc : Blockchain) (m : Miner), m.kind = .honest →
      (mine_block m bc).forks = bc.forks) ∧
    (∀ (ms : List Miner) (k : Nat) (f : Fork),
      (k, f) ∈ (runSim ms initChain).forks → ∃ j, f.tip.miner_id = MinerId.C j) := by
  constructor
  · intro bc m hk
    rw [mine_block, hk]
    show (add_block bc m (get_longest_chain bc)).forks = bc.forks
    rw [add_block_forks, if_neg]
    intro hcon
    exact hcon.1 rfl
  · intro ms k f hmem
    exact (inv_reachable ms).forkTipColluding (k, f) hmem

/-- Witness for C10: an honest append on the initial chain leaves the
empty registry unchanged. -/
theorem C10_fork_tips_colluding_witness :
    (mine_block mHonest1 initChain).forks = initChain.forks :=
  C10_fork_tips_colluding.1 initChain mHonest1 rfl

end MinerSim

namespace MinerSim

/-- Claim C1, counterexample: in the completed run honest, colluding
(gap 1), colluding (gap 1), the registry's sole record is
`Fork(genesis, block 2)` whose tip block 2 lies on the canonical chain,
while the genuinely abandoned block 1 (the honest block, absent from the
canonical walk) is named by no record at all — so the abandoned branch is
not represented by a record with its own blocks, and an abandoned block
is lost from the registry; only the depth count balances. -/
theorem C1_counterexample :
    (runSim [mHonest1, mColluding1, mColluding1] initChain).forks =
      [(2, ⟨genesisBlock, ⟨2, .C 1, some 0, 1⟩⟩)] ∧
    chainWalk (runSim [mHonest1, mColluding1, mColluding1] initChain).blocks
        (runSim [mHonest1, mColluding1, mColluding1] initChain).blocks.length
        (some (runSim [mHonest1, mColluding1, mColluding1] initChain).tip.id) =
      [⟨3, .C 1, some 2, 2⟩, ⟨2, .C 1, some 0, 1⟩, genesisBlock] ∧
    (⟨2, .C 1, some 0, 1⟩ : Block) ∈
      chainWalk (runSim [mHonest1, mColluding1, mColluding1] initChain).blocks
        (runSim [mHonest1, mColluding1, mColluding1] initChain).blocks.length
        (some (runSim [mHonest1, mColluding1, mColluding1] initChain).tip.id) ∧
    (⟨1, .H 1, some 0, 1⟩ : Block) ∈
      (runSim [mHonest1, mColluding1, mColluding1] initChain).blocks ∧
    (⟨1, .H 1, some 0, 1⟩ : Block) ∉
      chainWalk (runSim [mHonest1, mColluding1, mColluding1] initChain).blocks
        (runSim [mHonest1, mColluding1, mColluding1] initChain).blocks.length
        (some (runSim [mHonest1, mColluding1, mColluding1] initChain).tip.id) ∧
    (∀ kf ∈ (runSim [mHonest1, mColluding1, mColluding1] initChain).forks,
      kf.2.tip ≠ (⟨1, .H 1, some 0, 1⟩ : Block) ∧
      kf.2.base ≠ (⟨1, .H 1, some 0, 1⟩ : Block)) := by decide

end MinerSim
